import Mathlib

/-!
Verification of the KZG10 polynomial commitment scheme with optional hiding
(src/kzg_hiding.py), shallowly embedded over the dummy field-as-group model the
repository uses for testing: group elements are field elements, scalar
multiplication is field multiplication and the bilinear pairing is field
multiplication.  Randomness is made explicit: every random draw the Python code
performs becomes an explicit argument, and every `assert` becomes an `Option`
failure (`none`).
-/

set_option maxRecDepth 4000
set_option linter.unusedSectionVars false

namespace KZGHiding

/-- Module-level flag from the source (line 11): `negation_is_cheap = False`. -/
def negation_is_cheap : Bool := false

section PolyUtils

variable {F : Type} [Field F] [DecidableEq F]

/-- Modelled from the spec: `UniPolynomial.evaluate(point)` (unipolynomial.py is
not under src/); mathematical evaluation of the coefficient list at a point,
written in Horner form, index = power of the variable (spec section 3). -/
def evalPoly (coeffs : List F) (x : F) : F :=
  coeffs.foldr (fun c acc => c + x * acc) 0

/-- High-to-low Horner evaluation of a reversed coefficient list; auxiliary
view used to reason about the synthetic-division scan. -/
def evalRev (x : F) (l : List F) : F :=
  l.foldl (fun acc c => acc * x + c) 0

/-- True when every coefficient in the list is zero. -/
def allZero (l : List F) : Bool :=
  l.all (fun c => decide (c = 0))

/-- Modelled from the spec: `UniPolynomial.degree` (unipolynomial.py is not
under src/); the highest index carrying a nonzero coefficient, with the degree
of the all-zero polynomial defined as 0 by convention (spec section 3). -/
def polyDegree : List F → ℕ
  | [] => 0
  | _ :: cs => if allZero cs then 0 else polyDegree cs + 1

/-- Modelled from the spec: coefficient-wise polynomial addition
(`UniPolynomial` addition is not under src/); entries beyond the shorter list
are kept unchanged. -/
def polyAdd : List F → List F → List F
  | [], q => q
  | p, [] => p
  | a :: ps, b :: qs => (a + b) :: polyAdd ps qs

/-- skip_leading_zeros_and_convert_to_bigints (source lines 330-346): counts
the zero coefficients at the front (low-order end) of the list and returns that
count together with the remaining slice. -/
def skip_leading_zeros_and_convert_to_bigints (coeffs : List F) : ℕ × List F :=
  let n := (coeffs.takeWhile (fun c => decide (c = 0))).length
  (n, coeffs.drop n)

/-- Core scan of division_by_linear_divisor (source lines 320-325), acting on
the reversed (highest-degree-first) coefficient list: `seed` is the running
remainder, each step emits the current remainder as the next quotient
coefficient (highest first) and updates the remainder by `rem * d + coeff`. -/
def synthDivRev (d : F) : F → List F → List F × F
  | rem, [] => ([], rem)
  | rem, c :: cs =>
    let p := synthDivRev d (rem * d + c) cs
    (rem :: p.1, p.2)

/-- KZG10Commitment.division_by_linear_divisor (source lines 303-327): synthetic
division of the coefficient list by `(x - d)`; the assert on a list of fewer
than two coefficients is modelled as `none`.  The quotient is returned in
increasing-degree order, as the Python list is. -/
def division_by_linear_divisor (coeffs : List F) (d : F) : Option (List F × F) :=
  if coeffs.length ≤ 1 then none
  else
    match coeffs.reverse with
    | [] => none
    | seed :: cs => some ((synthDivRev d seed cs).1.reverse, (synthDivRev d seed cs).2)

/-- Quotient component of a successful synthetic division, with default value
for the failure case; lets claim statements avoid existential quantifiers. -/
def divQuot (coeffs : List F) (d : F) : List F :=
  ((division_by_linear_divisor coeffs d).getD ([], 0)).1

/-- Remainder component of a successful synthetic division, with default value
for the failure case. -/
def divRem (coeffs : List F) (d : F) : F :=
  ((division_by_linear_divisor coeffs d).getD ([], 0)).2

/-- Auxiliary scan for the coefficients of `q(x) * (x - d) + rem` read
highest-degree-first: `prev` is the previously emitted quotient coefficient. -/
def mlrAux (d : F) : F → List F → F → List F
  | prev, [], rem => [rem - d * prev]
  | prev, q :: qs, rem => (q - d * prev) :: mlrAux d q qs rem

/-- Coefficients of `q(x) * (x - d) + rem`, where the quotient `q` is given
highest-degree-first and the output is highest-degree-first as well; this is
the reconstruction the division-identity claim talks about. -/
def mulLinearRev (d : F) : List F → F → List F
  | [], rem => [rem]
  | q0 :: qs, rem => q0 :: mlrAux d q0 qs rem

end PolyUtils

section MSMInt

/-- next_power_of_two (source lines 415-431): despite its name it returns the
bit length of `n`, counting how many right shifts empty it. -/
def next_power_of_two (n : ℕ) : ℕ :=
  if n = 0 then 0 else next_power_of_two (n / 2) + 1
decreasing_by exact Nat.div_lt_self (Nat.pos_of_ne_zero (by assumption)) (by norm_num)

/-- msm_bigint_basic (source lines 367-381) on the integer "group": linear scan
accumulating `base * scalar`. -/
def msm_bigint_basic (bases : List ℤ) (bigints : List ℕ) : ℤ :=
  (bases.zip bigints).foldl (fun acc p => acc + p.1 * (p.2 : ℤ)) 0

/-- One bit-position pass of the inner loop of msm_bigint_wnaf (source lines
403-410): for every (base, scalar) pair whose bit length exceeds `i`, extract
the 5-bit window of the scalar at position `i` and add or subtract the
corresponding precomputed multiple. -/
def wnafInner (precomp : List (List ℤ)) (pairs : List (ℤ × ℕ)) (i : ℕ) (start : ℤ) : ℤ :=
  (pairs.enum.foldl (fun acc pj =>
    let scalar := pj.2.2
    let j := pj.1
    if next_power_of_two scalar > i then
      let window := (scalar >>> i) % 32
      if window ≠ 0 then
        if window ≥ 16 then acc - (precomp.getD j []).getD (window - 16) 0
        else acc + (precomp.getD j []).getD (window - 1) 0
      else acc
    else acc) start)

/-- msm_bigint_wnaf (source lines 384-412): WINDOW_SIZE = 5, a precomputed
table `precomp[j][i] = bases[j] * i` for `i < 16`, and an ascending scan over
bit positions that doubles the accumulator and applies `wnafInner` at each
position.  The Python `max` over an empty scalar list raises, modelled as
`none`. -/
def msm_bigint_wnaf (bases : List ℤ) (bigints : List ℕ) : Option ℤ :=
  match (bigints.map next_power_of_two).max? with
  | none => none
  | some m =>
    let precomp := bases.map (fun base => (List.range 16).map (fun i => base * (i : ℤ)))
    some ((List.range m).foldl
      (fun result i => wnafInner precomp (bases.zip bigints) i (result + result)) 0)

/-- msm_bigint (source lines 349-364): dispatches on the negation_is_cheap flag
between the windowed-NAF and the basic algorithm. -/
def msm_bigint (neg_cheap : Bool) (bases : List ℤ) (bigints : List ℕ) : Option ℤ :=
  if neg_cheap then msm_bigint_wnaf bases bigints
  else some (msm_bigint_basic bases bigints)

end MSMInt

section Scheme

variable {F : Type} [Field F] [DecidableEq F]

/-- msm_bigint_basic as invoked from commit/open, where both bases and scalars
are field elements of the dummy group: linear scan accumulating
`base * scalar`. -/
def msm_bigint_basicF (bases scalars : List F) : F :=
  (bases.zip scalars).foldl (fun acc p => acc + p.1 * p.2) 0

/-- msm_bigint as invoked from commit/open with field-element scalars.  The
windowed-NAF branch applies integer bit operations to its scalars and is only
meaningful for integer scalars (modelled above as `msm_bigint_wnaf`); with
field-element scalars that branch would fail dynamically, modelled as `none`. -/
def msm_bigintF (neg_cheap : Bool) (bases scalars : List F) : Option F :=
  if neg_cheap then none else some (msm_bigint_basicF bases scalars)

namespace DummyGroup

/-- Modelled from the spec: DummyGroup scalar multiplication (group.py is not
under src/); in the field-as-group testing model (spec sections 6 and 8)
scalar multiplication is field multiplication by the cast integer. -/
def scalar_mul (v : F) (n : ℤ) : F := v * (n : F)

/-- Modelled from the spec: DummyGroup exponentiation (group.py is not under
src/); the spec flags the exponent-by-one step of commitment addition as
behaving as the identity on the element (section 9), so exponentiation in the
additive field-as-group model is scalar multiplication. -/
def exp (v : F) (n : ℤ) : F := scalar_mul v n

/-- Modelled from the spec: DummyGroup.pairing (group.py is not under src/); a
bilinear pairing in the field-as-group testing model (spec sections 6 and 8),
namely field multiplication. -/
def pairing (a b : F) : F := a * b

end DummyGroup

/-- Commitment (source lines 13-61): a group-tagged value; the group tag is
modelled as a natural-number identity for the dummy group instance. -/
structure Commitment (F : Type) where
  group : ℕ
  value : F
deriving DecidableEq

/-- Commitment.__add__ (source lines 28-32): raises TypeError (modelled as
`none`) unless both commitments carry the same group tag, otherwise adds the
exponent-by-one images of the two values. -/
def Commitment.add (a b : Commitment F) : Option (Commitment F) :=
  if a.group = b.group then
    some ⟨a.group, DummyGroup.exp a.value 1 + DummyGroup.exp b.value 1⟩
  else none

/-- Proof dictionary returned by open (source line 232): the witness commitment
`w` and the optional blinding evaluation `random_v`. -/
structure Proof (F : Type) where
  w : F
  random_v : Option F
deriving DecidableEq

/-- Structured reference string returned by setup (source lines 122-129). -/
structure SRSParams (F : Type) where
  powers_of_g : List F
  powers_of_gamma_g : List F
  h : F
  beta_h : F
  neg_powers_of_h : List F
deriving DecidableEq

/-- Loop of setup building neg_powers_of_beta (source lines 114-118): starts
from `cur = 1 / s` and divides by `s` once per iteration. -/
def negPowersLoop (s : F) : F → ℕ → List F
  | _, 0 => []
  | cur, n + 1 => cur :: negPowersLoop s (cur / s) n

/-- KZG10Commitment.setup (source lines 83-129) with the randomness made
explicit: secret scalar `s`, generators `g` and `h`, blinding generator
`gamma_g`.  Builds `powers_of_s[i] = s^i` for `i < max_degree + 2`, then
`powers_of_g[i] = g * powers_of_s[i]` for `i < max_degree + 1`,
`powers_of_gamma_g[i] = gamma_g * powers_of_s[i]` for `i < max_degree + 2` and
`beta_h = s * h`; negative powers of `h` only when requested. -/
def setup (max_degree : ℕ) (produce_g2_powers : Bool) (s g h gamma_g : F) : SRSParams F :=
  let powers_of_s := (List.range (max_degree + 2)).map (fun i => s ^ i)
  let powers_of_g := (List.range (max_degree + 1)).map (fun i => g * powers_of_s.getD i 0)
  let powers_of_gamma_g := (List.range (max_degree + 2)).map (fun i => gamma_g * powers_of_s.getD i 0)
  let neg_powers_of_beta := 1 :: negPowersLoop s (1 / s) max_degree
  let neg_powers_of_h :=
    if produce_g2_powers then
      (List.range (max_degree + 1)).map (fun i => h * neg_powers_of_beta.getD i 0)
    else []
  { powers_of_g := powers_of_g
    powers_of_gamma_g := powers_of_gamma_g
    h := h
    beta_h := s * h
    neg_powers_of_h := neg_powers_of_h }

/-- Resample loop of commit (source lines 164-167): `random_ints` starts empty
(degree 0 by convention) and is redrawn until its degree is nonzero; the
successive candidate draws are supplied explicitly, and exhausting them without
finding a draw of positive degree means the loop has not terminated on the
supplied randomness, modelled as `none`. -/
def drawBlinding : List (List F) → Option (List F)
  | [] => none
  | r :: rs => if polyDegree r = 0 then drawBlinding rs else some r

/-- KZG10Commitment.commit (source lines 131-185): checks the degree bound
against the SRS, computes the MSM of the low-order-zero-trimmed coefficients
against the matching slice of powers_of_g, and, when a hiding bound is set,
runs the blinding resample loop, checks the hiding-bound asserts, and adds the
MSM of the blinding coefficients against powers_of_gamma_g.  Every assert
failure is `none`. -/
def commit (G1 : ℕ) (params : SRSParams F) (hiding_bound : Option ℕ) (coeffs : List F)
    (draws : List (List F)) : Option (Commitment F × List F) :=
  if polyDegree coeffs + 1 ≤ params.powers_of_g.length then
    let p := skip_leading_zeros_and_convert_to_bigints coeffs
    match msm_bigintF negation_is_cheap (params.powers_of_g.drop p.1) p.2 with
    | none => none
    | some c =>
      match hiding_bound with
      | none => some (⟨G1, c⟩, [])
      | some hb =>
        match drawBlinding draws with
        | none => none
        | some random_ints =>
          if hb ≠ 0 then
            if random_ints.length - 1 < params.powers_of_gamma_g.length then
              match msm_bigintF negation_is_cheap params.powers_of_gamma_g random_ints with
              | none => none
              | some rc => some (⟨G1, c + rc⟩, random_ints)
            else none
          else none
  else none

/-- Commitment component of a successful commit, with a default for the failure
case; lets claim statements avoid existential quantifiers. -/
def commitFst (G1 : ℕ) (params : SRSParams F) (hiding_bound : Option ℕ) (coeffs : List F)
    (draws : List (List F)) : Commitment F :=
  ((commit G1 params hiding_bound coeffs draws).getD (⟨G1, 0⟩, [])).1

/-- KZG10Commitment.compute_witness_polynomial (source lines 187-206): divides
the polynomial by `(x - point)`, and when hiding is enabled also divides the
blinding polynomial; either division failing its length assert is `none`. -/
def compute_witness_polynomial (hiding_bound : Option ℕ) (coeffs : List F) (point : F)
    (random_ints : List F) : Option (List F × Option (List F)) :=
  match division_by_linear_divisor coeffs point with
  | none => none
  | some qp =>
    match hiding_bound with
    | none => some (qp.1, none)
    | some _ =>
      match division_by_linear_divisor random_ints point with
      | none => none
      | some qr => some (qp.1, some qr.1)

/-- KZG10Commitment.open_with_witness_polynomial (source lines 208-232): checks
the witness degree bound strictly, commits to the trimmed witness polynomial,
and when a hiding witness is present evaluates the blinding polynomial at the
point and folds the gamma-powers MSM of the hiding witness into `w`. -/
def open_with_witness_polynomial (params : SRSParams F) (point : F) (random_ints : List F)
    (witness_polynomial : List F) (hiding_witness_polynomial : Option (List F)) :
    Option (Proof F) :=
  if polyDegree witness_polynomial + 1 < params.powers_of_g.length then
    let p := skip_leading_zeros_and_convert_to_bigints witness_polynomial
    match msm_bigintF negation_is_cheap (params.powers_of_g.drop p.1) p.2 with
    | none => none
    | some w0 =>
      match hiding_witness_polynomial with
      | none => some ⟨w0, none⟩
      | some hw =>
        let random_v := evalPoly random_ints point
        match msm_bigintF negation_is_cheap params.powers_of_gamma_g hw with
        | none => none
        | some w1 => some ⟨w0 + w1, some random_v⟩
  else none

/-- KZG10Commitment.open (source lines 234-253): checks the strict degree
bound, computes the witness polynomials and hands them to
open_with_witness_polynomial. -/
def openPoly (params : SRSParams F) (hiding_bound : Option ℕ) (coeffs : List F) (point : F)
    (random_ints : List F) : Option (Proof F) :=
  if polyDegree coeffs + 1 < params.powers_of_g.length then
    match compute_witness_polynomial hiding_bound coeffs point random_ints with
    | none => none
    | some wp => open_with_witness_polynomial params point random_ints wp.1 wp.2
  else none

/-- KZG10Commitment.check (source lines 256-274): forms
`inner = commitment - powers_of_g[0] * value`, subtracts
`powers_of_gamma_g[0] * random_v` when hiding is enabled (a proof lacking
`random_v` under hiding crashes, modelled as `none`), and compares the two
pairings. -/
def check (params : SRSParams F) (hiding_bound : Option ℕ) (comm : Commitment F)
    (point value : F) (pf : Proof F) : Option Bool :=
  let inner := comm.value - params.powers_of_g.getD 0 0 * value
  match hiding_bound with
  | none =>
    some (decide (DummyGroup.pairing inner params.h =
      DummyGroup.pairing pf.w (params.beta_h - params.h * point)))
  | some _ =>
    match pf.random_v with
    | none => none
    | some rv =>
      some (decide (DummyGroup.pairing (inner - params.powers_of_gamma_g.getD 0 0 * rv) params.h =
        DummyGroup.pairing pf.w (params.beta_h - params.h * point)))

/-- Full commit-open-check cycle at one point, with the blinding randomness
returned by commit passed on to open, as the completeness property composes
them; any assert failure along the way is `none`. -/
def commitOpenCheck (G1 : ℕ) (params : SRSParams F) (hiding_bound : Option ℕ) (coeffs : List F)
    (z : F) (draws : List (List F)) : Option Bool :=
  (commit G1 params hiding_bound coeffs draws).bind (fun cr =>
    (openPoly params hiding_bound coeffs z cr.2).bind (fun pf =>
      check params hiding_bound cr.1 z (evalPoly coeffs z) pf))

/-- Loop of KZG10Commitment.batch_check (source lines 286-293) with the randint
draws made explicit as a stream: each iteration folds `z * w` into the claim's
commitment, accumulates the multipliers and totals weighted by the current
randomizer, and only then replaces the randomizer by the next fresh draw.
State: remaining claims `(c, z, v, w, random_v)`, draw index, current
randomizer, total_c, total_w, g_multiplier, gamma_g_multiplier.  A missing
`random_v` under hiding crashes, modelled as `none`. -/
def batchLoop (hid : Bool) (draws : ℕ → ℤ) :
    List (F × F × F × F × Option F) → ℕ → ℤ → F → F → F → F → Option (F × F × F × F)
  | [], _, _, total_c, total_w, gm, ggm => some (total_c, total_w, gm, ggm)
  | cl :: rest, i, r, total_c, total_w, gm, ggm =>
    let c := cl.1
    let z := cl.2.1
    let v := cl.2.2.1
    let w := cl.2.2.2.1
    let rv := cl.2.2.2.2
    let cPrime := z * w + c
    let gm2 := gm + (r : F) * v
    match hid, rv with
    | true, none => none
    | true, some rvv =>
      batchLoop hid draws rest (i + 1) (draws i)
        (total_c + cPrime * (r : F)) (total_w + w * (r : F)) gm2 (ggm + (r : F) * rvv)
    | false, _ =>
      batchLoop hid draws rest (i + 1) (draws i)
        (total_c + cPrime * (r : F)) (total_w + w * (r : F)) gm2 ggm

/-- Claim tuples `(commitment value, point, value, w, random_v)` over which
the batch_check loop runs (source line 286): the four input lists zipped,
truncating to the shortest as Python zip does. -/
def batchClaims (commitments : List (Commitment F)) (points values : List F)
    (proofs : List (Proof F)) : List (F × F × F × F × Option F) :=
  (commitments.zip (points.zip (values.zip proofs))).map
    (fun x => (x.1.value, x.2.1, x.2.2.1, x.2.2.2.w, x.2.2.2.random_v))

/-- KZG10Commitment.batch_check (source lines 277-300): zips the claims, runs
the combination loop starting from randomizer 1, subtracts the multiplier
terms and compares the two pairings. -/
def batch_check (params : SRSParams F) (hiding_bound : Option ℕ)
    (commitments : List (Commitment F)) (points values : List F) (proofs : List (Proof F))
    (draws : ℕ → ℤ) : Option Bool :=
  match batchLoop hiding_bound.isSome draws
      (batchClaims commitments points values proofs) 0 1 0 0 0 0 with
  | none => none
  | some t =>
    let tc1 := t.1 - params.powers_of_g.getD 0 0 * t.2.2.1
    let tc2 := if hiding_bound.isSome then tc1 - params.powers_of_gamma_g.getD 0 0 * t.2.2.2
      else tc1
    some (decide (DummyGroup.pairing t.2.1 params.beta_h = DummyGroup.pairing tc2 params.h))

/-- Sequence of combination coefficients the batch_check loop applies to the
claims: the first claim is weighted by the initial value 1, claim `i + 1` by
the `i`-th fresh draw. -/
def randomizerSeq (draws : ℕ → ℤ) : ℕ → ℤ
  | 0 => 1
  | i + 1 => draws i

end Scheme

section PolyLemmas

variable {F : Type} [Field F] [DecidableEq F]

theorem evalPoly_nil (x : F) : evalPoly ([] : List F) x = 0 := rfl

theorem evalPoly_cons (c : F) (cs : List F) (x : F) :
    evalPoly (c :: cs) x = c + x * evalPoly cs x := rfl

theorem evalPoly_eq_zero (l : List F) (x : F) (h : ∀ i, l.getD i 0 = 0) :
    evalPoly l x = 0 := by
  induction l with
  | nil => rfl
  | cons c cs ih =>
    have hc : c = 0 := by simpa using h 0
    have ih2 : evalPoly cs x = 0 := ih (fun i => by simpa using h (i + 1))
    rw [evalPoly_cons, hc, ih2, mul_zero, add_zero]

theorem allZero_getD (l : List F) (h : allZero l = true) (i : ℕ) : l.getD i 0 = 0 := by
  induction l generalizing i with
  | nil => simp
  | cons c cs ih =>
    simp only [allZero, List.all_cons, Bool.and_eq_true, decide_eq_true_eq] at h
    cases i with
    | zero => simpa using h.1
    | succ n => simpa using ih h.2 n

theorem allZero_of_getD (l : List F) (h : ∀ i, l.getD i 0 = 0) : allZero l = true := by
  induction l with
  | nil => rfl
  | cons c cs ih =>
    simp only [allZero, List.all_cons, Bool.and_eq_true, decide_eq_true_eq]
    exact ⟨by simpa using h 0, ih (fun i => by simpa using h (i + 1))⟩

theorem getD_eq_zero_of_polyDegree_lt (l : List F) : ∀ i, polyDegree l < i → l.getD i 0 = 0 := by
  induction l with
  | nil => intro i _; simp
  | cons c cs ih =>
    intro i hi
    by_cases hz : allZero cs = true
    · cases i with
      | zero => simp [polyDegree, hz] at hi
      | succ n => simpa using allZero_getD cs hz n
    · cases i with
      | zero => simp [polyDegree, hz] at hi
      | succ n =>
        simp only [polyDegree, hz, if_false, Bool.false_eq_true] at hi
        simpa using ih n (by omega)

theorem polyDegree_le_of_getD (l : List F) : ∀ D : ℕ, (∀ i, D < i → l.getD i 0 = 0) →
    polyDegree l ≤ D := by
  induction l with
  | nil => intro D _; simp [polyDegree]
  | cons c cs ih =>
    intro D h
    by_cases hz : allZero cs = true
    · simp [polyDegree, hz]
    · cases D with
      | zero =>
        exact absurd (allZero_of_getD cs (fun i => by simpa using h (i + 1) (by omega))) hz
      | succ D =>
        have hcs : polyDegree cs ≤ D := ih D (fun i hi => by simpa using h (i + 1) (by omega))
        simp only [polyDegree, hz, if_false, Bool.false_eq_true]
        omega

theorem polyDegree_length_one (l : List F) (h : l.length = 1) : polyDegree l = 0 := by
  obtain ⟨a, rfl⟩ := List.length_eq_one.mp h
  simp [polyDegree, allZero]

theorem getD_reverse (l : List F) (i : ℕ) (h : i < l.length) :
    l.reverse.getD i 0 = l.getD (l.length - 1 - i) 0 := by
  rw [List.getD_eq_getElem?_getD, List.getD_eq_getElem?_getD,
    List.getElem?_reverse (by simpa using h)]

theorem getD_map_range (n : ℕ) (f : ℕ → F) (i : ℕ) (h : i < n) :
    ((List.range n).map f).getD i 0 = f i := by
  rw [List.getD_eq_getElem?_getD, List.getElem?_map, List.getElem?_range h]
  rfl

theorem polyAdd_getD (p : List F) : ∀ (q : List F) (i : ℕ),
    (polyAdd p q).getD i 0 = p.getD i 0 + q.getD i 0 := by
  induction p with
  | nil => intro q i; simp [polyAdd]
  | cons a ps ih =>
    intro q i
    cases q with
    | nil => simp [polyAdd]
    | cons b qs =>
      cases i with
      | zero => simp [polyAdd]
      | succ n => simpa [polyAdd] using ih qs n

theorem polyDegree_polyAdd_le (p q : List F) (D : ℕ) (hp : polyDegree p ≤ D)
    (hq : polyDegree q ≤ D) : polyDegree (polyAdd p q) ≤ D := by
  apply polyDegree_le_of_getD
  intro i hi
  rw [polyAdd_getD, getD_eq_zero_of_polyDegree_lt p i (by omega),
    getD_eq_zero_of_polyDegree_lt q i (by omega), add_zero]

end PolyLemmas

section DotLemmas

variable {F : Type} [Field F] [DecidableEq F]

theorem dot_foldl_init (l : List (F × F)) : ∀ x : F,
    l.foldl (fun acc p => acc + p.1 * p.2) x = x + l.foldl (fun acc p => acc + p.1 * p.2) 0 := by
  induction l with
  | nil => intro x; simp
  | cons a l ih =>
    intro x
    simp only [List.foldl_cons]
    rw [ih (x + a.1 * a.2), ih (0 + a.1 * a.2)]
    ring

theorem msm_basicF_nil_left (l : List F) : msm_bigint_basicF ([] : List F) l = 0 := rfl

theorem msm_basicF_nil_right (l : List F) : msm_bigint_basicF l ([] : List F) = 0 := by
  simp [msm_bigint_basicF, List.zip_nil_right]

theorem msm_basicF_cons (a b : F) (l1 l2 : List F) :
    msm_bigint_basicF (a :: l1) (b :: l2) = a * b + msm_bigint_basicF l1 l2 := by
  simp only [msm_bigint_basicF, List.zip_cons_cons, List.foldl_cons]
  rw [dot_foldl_init]
  ring

theorem msm_basicF_drop_zeros (coeffs : List F) : ∀ powers : List F,
    msm_bigint_basicF (powers.drop (coeffs.takeWhile (fun c => decide (c = 0))).length)
      (coeffs.drop (coeffs.takeWhile (fun c => decide (c = 0))).length) =
    msm_bigint_basicF powers coeffs := by
  induction coeffs with
  | nil => intro powers; simp [msm_basicF_nil_right]
  | cons c cs ih =>
    intro powers
    by_cases hc : c = 0
    · have hTW : (c :: cs).takeWhile (fun x => decide (x = 0)) =
          c :: cs.takeWhile (fun x => decide (x = 0)) := by
        rw [List.takeWhile_cons, if_pos (by simp [hc])]
      rw [hTW]
      simp only [List.length_cons, List.drop_succ_cons]
      cases powers with
      | nil => simp [List.drop_nil, msm_basicF_nil_left]
      | cons p ps =>
        rw [List.drop_succ_cons, ih ps, msm_basicF_cons, hc, mul_zero, zero_add]
    · rw [List.takeWhile_cons]
      simp [hc]

theorem msm_basicF_geometric (p : List F) : ∀ (L : ℕ) (g s : F),
    (∀ i, L ≤ i → p.getD i 0 = 0) →
    msm_bigint_basicF ((List.range L).map (fun i => g * s ^ i)) p = g * evalPoly p s := by
  induction p with
  | nil => intro L g s _; simp [msm_basicF_nil_right, evalPoly_nil]
  | cons c cs ih =>
    intro L g s h
    cases L with
    | zero =>
      rw [evalPoly_eq_zero _ s (fun i => h i (Nat.zero_le i))]
      simp [msm_basicF_nil_left]
    | succ L =>
      rw [List.range_succ_eq_map, List.map_cons, List.map_map]
      have hfun : ((fun i => g * s ^ i) ∘ (· + 1)) = fun i : ℕ => (g * s) * s ^ i := by
        funext i
        simp only [Function.comp_apply, pow_succ]
        ring
      rw [hfun, msm_basicF_cons, pow_zero, mul_one,
        ih L (g * s) s (fun i hi => by simpa using h (i + 1) (by omega)), evalPoly_cons]
      ring

theorem msm_basicF_polyAdd (p : List F) : ∀ (q w : List F),
    msm_bigint_basicF w (polyAdd p q) = msm_bigint_basicF w p + msm_bigint_basicF w q := by
  induction p with
  | nil => intro q w; simp [polyAdd, msm_basicF_nil_right]
  | cons a ps ih =>
    intro q w
    cases q with
    | nil =>
      simp only [polyAdd, msm_basicF_nil_right, add_zero]
    | cons b qs =>
      cases w with
      | nil => simp [msm_basicF_nil_left]
      | cons w0 ws =>
        simp only [polyAdd]
        rw [msm_basicF_cons, msm_basicF_cons, msm_basicF_cons, ih qs ws]
        ring

end DotLemmas

section DivisionLemmas

variable {F : Type} [Field F] [DecidableEq F]

theorem evalRev_foldl_shift (x : F) (l : List F) : ∀ a e : F,
    l.foldl (fun acc c => acc * x + c) (a + e) =
    l.foldl (fun acc c => acc * x + c) a + e * x ^ l.length := by
  induction l with
  | nil => intro a e; simp
  | cons c cs ih =>
    intro a e
    simp only [List.foldl_cons, List.length_cons]
    have hsplit : (a + e) * x + c = (a * x + c) + e * x := by ring
    rw [hsplit, ih]
    ring

theorem evalPoly_eq_evalRev (l : List F) (x : F) : evalPoly l x = evalRev x l.reverse := by
  induction l with
  | nil => rfl
  | cons c cs ih =>
    rw [evalPoly_cons, List.reverse_cons]
    simp only [evalRev, List.foldl_append, List.foldl_cons, List.foldl_nil]
    rw [show cs.reverse.foldl (fun acc c => acc * x + c) 0 = evalRev x cs.reverse from rfl, ← ih]
    ring

theorem synthDivRev_length (d : F) (cs : List F) : ∀ seed : F,
    (synthDivRev d seed cs).1.length = cs.length := by
  induction cs with
  | nil => intro seed; rfl
  | cons c cs ih => intro seed; simp [synthDivRev, ih]

theorem synthDivRev_evalRev (d x : F) (cs : List F) : ∀ seed : F,
    evalRev x (seed :: cs) =
    evalRev x (synthDivRev d seed cs).1 * (x - d) + (synthDivRev d seed cs).2 := by
  induction cs with
  | nil => intro seed; simp [synthDivRev, evalRev]
  | cons c cs ih =>
    intro seed
    have lhs1 : evalRev x (seed :: c :: cs) =
        cs.foldl (fun acc c => acc * x + c) (seed * x + c) := by
      simp [evalRev]
    have hsplit : seed * x + c = (seed * d + c) + seed * (x - d) := by ring
    have l2 : cs.foldl (fun acc c => acc * x + c) (seed * d + c) =
        evalRev x ((seed * d + c) :: cs) := by
      simp [evalRev]
    rw [lhs1, hsplit, evalRev_foldl_shift, l2, ih (seed * d + c)]
    simp only [synthDivRev]
    have l3 : evalRev x (seed :: (synthDivRev d (seed * d + c) cs).1) =
        evalRev x (synthDivRev d (seed * d + c) cs).1 + seed * x ^ cs.length := by
      have hs : evalRev x (seed :: (synthDivRev d (seed * d + c) cs).1) =
          (synthDivRev d (seed * d + c) cs).1.foldl (fun acc c => acc * x + c) (0 + seed) := by
        simp [evalRev]
      rw [hs, evalRev_foldl_shift, synthDivRev_length]
      rfl
    rw [l3]
    ring

theorem mlrAux_eq (d prev rem : F) (qs : List F) :
    mlrAux d prev qs rem =
    ((mulLinearRev d qs rem).headD 0 - d * prev) :: (mulLinearRev d qs rem).tail := by
  cases qs <;> rfl

theorem synthDivRev_recon (d : F) (cs : List F) : ∀ seed : F,
    mulLinearRev d (synthDivRev d seed cs).1 (synthDivRev d seed cs).2 = seed :: cs := by
  induction cs with
  | nil => intro seed; rfl
  | cons c cs ih =>
    intro seed
    have hrec := ih (seed * d + c)
    simp only [synthDivRev, mulLinearRev]
    rw [mlrAux_eq, hrec]
    simp only [List.headD_cons, List.tail_cons]
    have hc : seed * d + c - d * seed = c := by ring
    rw [hc]

theorem synthDivRev_prefix_zero (d : F) (cs : List F) : ∀ (seed : F) (t : ℕ),
    (∀ j, j < t → (seed :: cs).getD j 0 = 0) →
    ∀ j, j < t → (synthDivRev d seed cs).1.getD j 0 = 0 := by
  induction cs with
  | nil => intro seed t _ j _; simp [synthDivRev]
  | cons c cs ih =>
    intro seed t h j hj
    simp only [synthDivRev]
    cases j with
    | zero => simpa using h 0 (by omega)
    | succ j =>
      rw [List.getD_cons_succ]
      apply ih (seed * d + c) (t - 1) ?_ j (by omega)
      intro j' hj'
      cases j' with
      | zero =>
        have h0 : seed = 0 := by simpa using h 0 (by omega)
        have h1 : c = 0 := by simpa using h 1 (by omega)
        simp [h0, h1]
      | succ j' =>
        simpa using h (j' + 2) (by omega)

theorem division_eq (coeffs : List F) (d : F) (h : 2 ≤ coeffs.length) :
    ∃ seed cs, coeffs.reverse = seed :: cs ∧
      division_by_linear_divisor coeffs d =
        some ((synthDivRev d seed cs).1.reverse, (synthDivRev d seed cs).2) := by
  match hrev : coeffs.reverse with
  | [] =>
    exfalso
    have hlen0 := congrArg List.length hrev
    rw [List.length_reverse, List.length_nil] at hlen0
    omega
  | seed :: cs =>
    refine ⟨seed, cs, rfl, ?_⟩
    unfold division_by_linear_divisor
    rw [if_neg (by omega), hrev]

theorem division_length_le (coeffs : List F) (d : F) (q : List F) (r : F)
    (h : division_by_linear_divisor coeffs d = some (q, r)) : 2 ≤ coeffs.length := by
  by_contra hc
  unfold division_by_linear_divisor at h
  rw [if_pos (by omega)] at h
  exact Option.noConfusion h

theorem division_components (coeffs : List F) (d : F) (q : List F) (r : F)
    (h : division_by_linear_divisor coeffs d = some (q, r)) :
    ∃ seed cs, coeffs.reverse = seed :: cs ∧
      q = (synthDivRev d seed cs).1.reverse ∧ r = (synthDivRev d seed cs).2 := by
  obtain ⟨seed, cs, hrev, heq⟩ := division_eq coeffs d (division_length_le coeffs d q r h)
  rw [h] at heq
  obtain ⟨h1, h2⟩ := Prod.mk.injEq .. ▸ Option.some.inj heq
  exact ⟨seed, cs, hrev, h1.symm ▸ rfl, h2.symm ▸ rfl⟩

theorem division_quotient_length (coeffs : List F) (d : F) (q : List F) (r : F)
    (h : division_by_linear_divisor coeffs d = some (q, r)) :
    q.length + 1 = coeffs.length := by
  obtain ⟨seed, cs, hrev, hq, _⟩ := division_components coeffs d q r h
  have hclen : coeffs.length = cs.length + 1 := by
    have := congrArg List.length hrev
    simpa using this
  rw [hq, List.length_reverse, synthDivRev_length, hclen]

theorem division_eval (coeffs : List F) (d : F) (q : List F) (r : F)
    (h : division_by_linear_divisor coeffs d = some (q, r)) (x : F) :
    evalPoly coeffs x = evalPoly q x * (x - d) + r := by
  obtain ⟨seed, cs, hrev, hq, hr⟩ := division_components coeffs d q r h
  rw [evalPoly_eq_evalRev coeffs x, hrev, synthDivRev_evalRev d x cs seed,
    evalPoly_eq_evalRev q x, hq, List.reverse_reverse, hr]

theorem division_remainder (coeffs : List F) (d : F) (q : List F) (r : F)
    (h : division_by_linear_divisor coeffs d = some (q, r)) :
    r = evalPoly coeffs d := by
  have := division_eval coeffs d q r h d
  rw [sub_self, mul_zero, zero_add] at this
  exact this.symm

theorem division_recon (coeffs : List F) (d : F) (q : List F) (r : F)
    (h : division_by_linear_divisor coeffs d = some (q, r)) :
    (mulLinearRev d q.reverse r).reverse = coeffs := by
  obtain ⟨seed, cs, hrev, hq, hr⟩ := division_components coeffs d q r h
  rw [hq, List.reverse_reverse, hr, synthDivRev_recon, ← hrev, List.reverse_reverse]

theorem division_eq_quot_rem (coeffs : List F) (d : F) (h : 2 ≤ coeffs.length) :
    division_by_linear_divisor coeffs d = some (divQuot coeffs d, divRem coeffs d) := by
  obtain ⟨seed, cs, _, hdiv⟩ := division_eq coeffs d h
  unfold divQuot divRem
  rw [hdiv, Option.getD_some]

theorem division_degree_le (coeffs : List F) (d : F) (q : List F) (r : F)
    (h : division_by_linear_divisor coeffs d = some (q, r)) :
    polyDegree q ≤ polyDegree coeffs := by
  obtain ⟨seed, cs, hrev, hq, _⟩ := division_components coeffs d q r h
  have hclen : coeffs.length = cs.length + 1 := by
    have := congrArg List.length hrev
    simpa using this
  have hqlen : q.length = cs.length := by
    rw [hq, List.length_reverse, synthDivRev_length]
  apply polyDegree_le_of_getD
  intro i hi
  by_cases hbound : i < q.length
  · have hq1len : (synthDivRev d seed cs).1.length = cs.length := synthDivRev_length d cs seed
    rw [hq, getD_reverse _ i (by omega)]
    apply synthDivRev_prefix_zero d cs seed (coeffs.length - 1 - polyDegree coeffs)
    · intro j hj
      have hjlt : j < coeffs.reverse.length := by simp; omega
      rw [← hrev, getD_reverse coeffs j (by simpa using hjlt)]
      exact getD_eq_zero_of_polyDegree_lt coeffs _ (by omega)
    · omega
  · exact List.getD_eq_default _ _ (by omega)

end DivisionLemmas

section SchemeLemmas

variable {F : Type} [Field F] [DecidableEq F]

theorem setup_powers_of_g (md : ℕ) (flag : Bool) (s g h γ : F) :
    (setup md flag s g h γ).powers_of_g = (List.range (md + 1)).map (fun i => g * s ^ i) := by
  simp only [setup]
  apply List.map_congr_left
  intro i hi
  have hi2 : i < md + 2 := by
    have := List.mem_range.mp hi
    omega
  rw [getD_map_range _ _ i hi2]

theorem setup_powers_of_gamma_g (md : ℕ) (flag : Bool) (s g h γ : F) :
    (setup md flag s g h γ).powers_of_gamma_g =
      (List.range (md + 2)).map (fun i => γ * s ^ i) := by
  simp only [setup]
  apply List.map_congr_left
  intro i hi
  rw [getD_map_range _ _ i (List.mem_range.mp hi)]

theorem setup_powers_of_g_length (md : ℕ) (flag : Bool) (s g h γ : F) :
    (setup md flag s g h γ).powers_of_g.length = md + 1 := by
  rw [setup_powers_of_g]
  simp

theorem setup_powers_of_gamma_g_length (md : ℕ) (flag : Bool) (s g h γ : F) :
    (setup md flag s g h γ).powers_of_gamma_g.length = md + 2 := by
  rw [setup_powers_of_gamma_g]
  simp

theorem setup_g0 (md : ℕ) (flag : Bool) (s g h γ : F) :
    (setup md flag s g h γ).powers_of_g.getD 0 0 = g := by
  rw [setup_powers_of_g, getD_map_range _ _ 0 (by omega), pow_zero, mul_one]

theorem setup_gamma0 (md : ℕ) (flag : Bool) (s g h γ : F) :
    (setup md flag s g h γ).powers_of_gamma_g.getD 0 0 = γ := by
  rw [setup_powers_of_gamma_g, getD_map_range _ _ 0 (by omega), pow_zero, mul_one]

theorem setup_h_eq (md : ℕ) (flag : Bool) (s g h γ : F) :
    (setup md flag s g h γ).h = h := rfl

theorem setup_beta_h (md : ℕ) (flag : Bool) (s g h γ : F) :
    (setup md flag s g h γ).beta_h = s * h := rfl

theorem msm_bigintF_false (bases scalars : List F) :
    msm_bigintF negation_is_cheap bases scalars = some (msm_bigint_basicF bases scalars) := rfl

theorem commit_char_none (G1 : ℕ) (P : SRSParams F) (coeffs : List F) (draws : List (List F))
    (hdeg : polyDegree coeffs + 1 ≤ P.powers_of_g.length) :
    commit G1 P none coeffs draws =
      some (⟨G1, msm_bigint_basicF P.powers_of_g coeffs⟩, []) := by
  unfold commit
  rw [if_pos hdeg]
  simp only [skip_leading_zeros_and_convert_to_bigints, msm_bigintF_false]
  rw [msm_basicF_drop_zeros]

theorem commit_char_some (G1 : ℕ) (P : SRSParams F) (hb : ℕ) (coeffs : List F)
    (draws : List (List F)) (r : List F)
    (hdeg : polyDegree coeffs + 1 ≤ P.powers_of_g.length)
    (hdraw : drawBlinding draws = some r)
    (hb0 : hb ≠ 0) (hrlen : r.length - 1 < P.powers_of_gamma_g.length) :
    commit G1 P (some hb) coeffs draws =
      some (⟨G1, msm_bigint_basicF P.powers_of_g coeffs +
        msm_bigint_basicF P.powers_of_gamma_g r⟩, r) := by
  unfold commit
  rw [if_pos hdeg]
  simp only [skip_leading_zeros_and_convert_to_bigints, msm_bigintF_false, hdraw]
  rw [if_pos hb0, if_pos hrlen]
  rw [msm_basicF_drop_zeros]

theorem drawBlinding_degree (draws : List (List F)) (r : List F)
    (h : drawBlinding draws = some r) : 1 ≤ polyDegree r := by
  induction draws with
  | nil => exact Option.noConfusion h
  | cons d ds ih =>
    unfold drawBlinding at h
    by_cases hz : polyDegree d = 0
    · rw [if_pos hz] at h
      exact ih h
    · rw [if_neg hz] at h
      obtain rfl := Option.some.inj h
      omega

theorem drawBlinding_none_of_short (draws : List (List F))
    (h : ∀ l ∈ draws, l.length = 1) : drawBlinding draws = none := by
  induction draws with
  | nil => rfl
  | cons d ds ih =>
    unfold drawBlinding
    rw [if_pos (polyDegree_length_one d (h d (by simp)))]
    exact ih (fun l hl => h l (by simp [hl]))

theorem openPoly_char_none (P : SRSParams F) (coeffs : List F) (z : F) (rnd : List F)
    (hlen : 2 ≤ coeffs.length) (hdeg : polyDegree coeffs + 1 < P.powers_of_g.length) :
    openPoly P none coeffs z rnd =
      some ⟨msm_bigint_basicF P.powers_of_g (divQuot coeffs z), none⟩ := by
  obtain ⟨seed, cs, hrev, hdiv⟩ := division_eq coeffs z hlen
  have hq : divQuot coeffs z = (synthDivRev z seed cs).1.reverse := by
    unfold divQuot
    rw [hdiv, Option.getD_some]
  unfold openPoly
  rw [if_pos hdeg]
  unfold compute_witness_polynomial
  rw [hdiv]
  simp only
  unfold open_with_witness_polynomial
  have hdq : polyDegree ((synthDivRev z seed cs).1.reverse) + 1 < P.powers_of_g.length := by
    have := division_degree_le coeffs z _ _ hdiv
    omega
  rw [if_pos hdq]
  simp only [skip_leading_zeros_and_convert_to_bigints, msm_bigintF_false]
  rw [msm_basicF_drop_zeros, hq]

theorem openPoly_char_some (P : SRSParams F) (hb : ℕ) (coeffs : List F) (z : F) (rnd : List F)
    (hlen : 2 ≤ coeffs.length) (hdeg : polyDegree coeffs + 1 < P.powers_of_g.length)
    (hrnd : 2 ≤ rnd.length) :
    openPoly P (some hb) coeffs z rnd =
      some ⟨msm_bigint_basicF P.powers_of_g (divQuot coeffs z) +
        msm_bigint_basicF P.powers_of_gamma_g (divQuot rnd z), some (evalPoly rnd z)⟩ := by
  obtain ⟨seed, cs, hrev, hdiv⟩ := division_eq coeffs z hlen
  obtain ⟨seed2, cs2, hrev2, hdiv2⟩ := division_eq rnd z hrnd
  have hq : divQuot coeffs z = (synthDivRev z seed cs).1.reverse := by
    unfold divQuot
    rw [hdiv, Option.getD_some]
  have hq2 : divQuot rnd z = (synthDivRev z seed2 cs2).1.reverse := by
    unfold divQuot
    rw [hdiv2, Option.getD_some]
  unfold openPoly
  rw [if_pos hdeg]
  unfold compute_witness_polynomial
  rw [hdiv, hdiv2]
  simp only
  unfold open_with_witness_polynomial
  have hdq : polyDegree ((synthDivRev z seed cs).1.reverse) + 1 < P.powers_of_g.length := by
    have := division_degree_le coeffs z _ _ hdiv
    omega
  rw [if_pos hdq]
  simp only [skip_leading_zeros_and_convert_to_bigints, msm_bigintF_false]
  rw [msm_basicF_drop_zeros, hq, hq2]

end SchemeLemmas

section BatchLemmas

variable {F : Type} [Field F] [DecidableEq F]

/-- Combination coefficients applied by the batch_check loop when entered at
draw index `i` with current randomizer `r`: the head claim is weighted by `r`,
claim `j + 1` by the draw at index `i + j`. -/
def randomizerSeqFrom (draws : ℕ → ℤ) (i : ℕ) (r : ℤ) : ℕ → ℤ
  | 0 => r
  | j + 1 => draws (i + j)

theorem randomizerSeqFrom_shift (draws : ℕ → ℤ) (i : ℕ) (j : ℕ) :
    randomizerSeqFrom draws (i + 1) (draws i) j = draws (i + j) := by
  cases j with
  | zero => simp [randomizerSeqFrom]
  | succ k =>
    show draws (i + 1 + k) = draws (i + (k + 1))
    exact congrArg draws (by omega)

theorem randomizerSeq_eq_from (draws : ℕ → ℤ) (j : ℕ) :
    randomizerSeq draws j = randomizerSeqFrom draws 0 1 j := by
  cases j with
  | zero => rfl
  | succ k =>
    show draws k = draws (0 + k)
    exact congrArg draws (by omega)

theorem sum_shift_coeff (n : ℕ) (t : ℕ → F) (draws : ℕ → ℤ) (i : ℕ) (r : ℤ) :
    ∑ j ∈ Finset.range (n + 1), t j * ((randomizerSeqFrom draws i r j : ℤ) : F) =
    (∑ j ∈ Finset.range n, t (j + 1) * ((randomizerSeqFrom draws (i + 1) (draws i) j : ℤ) : F)) +
      t 0 * ((r : ℤ) : F) := by
  rw [Finset.sum_range_succ']
  congr 1
  apply Finset.sum_congr rfl
  intro j _
  rw [randomizerSeqFrom_shift draws i j]
  rfl

theorem sum_shift_coeff_left (n : ℕ) (t : ℕ → F) (draws : ℕ → ℤ) (i : ℕ) (r : ℤ) :
    ∑ j ∈ Finset.range (n + 1), ((randomizerSeqFrom draws i r j : ℤ) : F) * t j =
    (∑ j ∈ Finset.range n, ((randomizerSeqFrom draws (i + 1) (draws i) j : ℤ) : F) * t (j + 1)) +
      ((r : ℤ) : F) * t 0 := by
  rw [Finset.sum_range_succ']
  congr 1
  apply Finset.sum_congr rfl
  intro j _
  rw [randomizerSeqFrom_shift draws i j]
  rfl

theorem batchLoop_spec (draws : ℕ → ℤ) (claims : List (F × F × F × F × Option F)) :
    ∀ (hid : Bool) (i : ℕ) (r : ℤ) (tc tw gm ggm tc2 tw2 gm2 ggm2 : F),
    batchLoop hid draws claims i r tc tw gm ggm = some (tc2, tw2, gm2, ggm2) →
    tc2 = tc + ∑ j ∈ Finset.range claims.length,
        ((claims.getD j (0, 0, 0, 0, none)).2.1 * (claims.getD j (0, 0, 0, 0, none)).2.2.2.1 +
          (claims.getD j (0, 0, 0, 0, none)).1) * ((randomizerSeqFrom draws i r j : ℤ) : F) ∧
    tw2 = tw + ∑ j ∈ Finset.range claims.length,
        (claims.getD j (0, 0, 0, 0, none)).2.2.2.1 * ((randomizerSeqFrom draws i r j : ℤ) : F) ∧
    gm2 = gm + ∑ j ∈ Finset.range claims.length,
        ((randomizerSeqFrom draws i r j : ℤ) : F) * (claims.getD j (0, 0, 0, 0, none)).2.2.1 ∧
    ggm2 = ggm + (if hid then ∑ j ∈ Finset.range claims.length,
        ((randomizerSeqFrom draws i r j : ℤ) : F) *
          ((claims.getD j (0, 0, 0, 0, none)).2.2.2.2).getD 0
      else 0) := by
  induction claims with
  | nil =>
    intro hid i r tc tw gm ggm tc2 tw2 gm2 ggm2 h
    simp only [batchLoop, Option.some.injEq, Prod.mk.injEq] at h
    obtain ⟨rfl, rfl, rfl, rfl⟩ := h
    simp
  | cons cl rest ih =>
    intro hid i r tc tw gm ggm tc2 tw2 gm2 ggm2 h
    obtain ⟨c, z, v, w, rv⟩ := cl
    cases hid with
    | false =>
      have hstep : batchLoop false draws ((c, z, v, w, rv) :: rest) i r tc tw gm ggm =
          batchLoop false draws rest (i + 1) (draws i) (tc + (z * w + c) * (r : F))
            (tw + w * (r : F)) (gm + (r : F) * v) ggm := rfl
      rw [hstep] at h
      obtain ⟨h1, h2, h3, h4⟩ := ih false (i + 1) (draws i) _ _ _ _ _ _ _ _ h
      refine ⟨?_, ?_, ?_, ?_⟩
      · rw [h1, List.length_cons, sum_shift_coeff]
        simp only [List.getD_cons_succ, List.getD_cons_zero]
        ring
      · rw [h2, List.length_cons, sum_shift_coeff]
        simp only [List.getD_cons_succ, List.getD_cons_zero]
        ring
      · rw [h3, List.length_cons, sum_shift_coeff_left]
        simp only [List.getD_cons_succ, List.getD_cons_zero]
        ring
      · simpa using h4
    | true =>
      cases rv with
      | none => exact Option.noConfusion h
      | some rvv =>
        have hstep : batchLoop true draws ((c, z, v, w, some rvv) :: rest) i r tc tw gm ggm =
            batchLoop true draws rest (i + 1) (draws i) (tc + (z * w + c) * (r : F))
              (tw + w * (r : F)) (gm + (r : F) * v) (ggm + (r : F) * rvv) := rfl
        rw [hstep] at h
        obtain ⟨h1, h2, h3, h4⟩ := ih true (i + 1) (draws i) _ _ _ _ _ _ _ _ h
        refine ⟨?_, ?_, ?_, ?_⟩
        · rw [h1, List.length_cons, sum_shift_coeff]
          simp only [List.getD_cons_succ, List.getD_cons_zero]
          ring
        · rw [h2, List.length_cons, sum_shift_coeff]
          simp only [List.getD_cons_succ, List.getD_cons_zero]
          ring
        · rw [h3, List.length_cons, sum_shift_coeff_left]
          simp only [List.getD_cons_succ, List.getD_cons_zero]
          ring
        · rw [h4]
          simp only [if_true]
          rw [List.length_cons, sum_shift_coeff_left]
          simp only [List.getD_cons_succ, List.getD_cons_zero, Option.getD_some]
          ring

end BatchLemmas

instance fact_prime_17 : Fact (Nat.Prime 17) := ⟨by norm_num⟩

section ClaimC1

variable {F : Type} [Field F] [DecidableEq F]

/-- C1 (amended): for every polynomial with at least two coefficients and
degree strictly below max_degree (the strict bound open asserts), and every
point z, committing, opening at z with the hiding randomness returned by
commit, and checking the proof against the commitment and the evaluation at z
yields true; under hiding the resample loop must return a blinding polynomial
of the drawn length b + 1 with 1 ≤ b ≤ max_degree + 1. -/
theorem C1_completeness (md : ℕ) (flag : Bool) (s g hgen γ : F) (G1 : ℕ)
    (hb : Option ℕ) (coeffs : List F) (z : F) (draws : List (List F))
    (hlen : 2 ≤ coeffs.length)
    (hdeg : polyDegree coeffs + 1 < md + 1)
    (hdraw : ∀ b, hb = some b → 1 ≤ b ∧ b ≤ md + 1 ∧
      ∃ r, drawBlinding draws = some r ∧ r.length = b + 1) :
    commitOpenCheck G1 (setup md flag s g hgen γ) hb coeffs z draws = some true := by
  have hglen := setup_powers_of_g_length md flag s g hgen γ
  have hγlen := setup_powers_of_gamma_g_length md flag s g hgen γ
  have hdotG : ∀ p : List F, polyDegree p < md + 1 →
      msm_bigint_basicF (setup md flag s g hgen γ).powers_of_g p = g * evalPoly p s := by
    intro p hp
    rw [setup_powers_of_g]
    exact msm_basicF_geometric p (md + 1) g s
      (fun i hi => getD_eq_zero_of_polyDegree_lt p i (by omega))
  have hdotΓ : ∀ p : List F, p.length ≤ md + 2 →
      msm_bigint_basicF (setup md flag s g hgen γ).powers_of_gamma_g p = γ * evalPoly p s := by
    intro p hp
    rw [setup_powers_of_gamma_g]
    exact msm_basicF_geometric p (md + 2) γ s
      (fun i hi => List.getD_eq_default _ _ (by omega))
  have hdivC := division_eq_quot_rem coeffs z hlen
  have hremC : divRem coeffs z = evalPoly coeffs z := division_remainder coeffs z _ _ hdivC
  have hevalC := division_eval coeffs z _ _ hdivC
  have hdegQ : polyDegree (divQuot coeffs z) ≤ polyDegree coeffs :=
    division_degree_le coeffs z _ _ hdivC
  cases hb with
  | none =>
    unfold commitOpenCheck
    rw [commit_char_none G1 (setup md flag s g hgen γ) coeffs draws (by omega), Option.some_bind,
      openPoly_char_none (setup md flag s g hgen γ) coeffs z [] hlen (by omega), Option.some_bind]
    unfold check
    simp only [DummyGroup.pairing, setup_g0, setup_h_eq, setup_beta_h]
    rw [hdotG coeffs (by omega), hdotG (divQuot coeffs z) (by omega)]
    refine congrArg some (decide_eq_true ?_)
    rw [hevalC s, ← hremC]
    ring
  | some b =>
    obtain ⟨hb1, hbmd, r, hdr, hrlen⟩ := hdraw b rfl
    have hrnd2 : 2 ≤ r.length := by omega
    have hdivR := division_eq_quot_rem r z hrnd2
    have hremR : divRem r z = evalPoly r z := division_remainder r z _ _ hdivR
    have hevalR := division_eval r z _ _ hdivR
    have hlenQR : (divQuot r z).length + 1 = r.length :=
      division_quotient_length r z _ _ hdivR
    unfold commitOpenCheck
    rw [commit_char_some G1 (setup md flag s g hgen γ) b coeffs draws r (by omega) hdr
        (by omega) (by omega), Option.some_bind,
      openPoly_char_some (setup md flag s g hgen γ) b coeffs z r hlen (by omega) hrnd2,
      Option.some_bind]
    unfold check
    simp only [DummyGroup.pairing, setup_g0, setup_gamma0, setup_h_eq, setup_beta_h]
    rw [hdotG coeffs (by omega), hdotG (divQuot coeffs z) (by omega),
      hdotΓ r (by omega), hdotΓ (divQuot r z) (by omega)]
    refine congrArg some (decide_eq_true ?_)
    rw [hevalC s, ← hremC, hevalR s, ← hremR]
    ring

/-- C1 counterexample: as stated over all polynomials with degree at most
max_degree the completeness claim fails on the code, because open asserts the
strict bound degree + 1 < len(powers_of_g) and synthetic division rejects
single-coefficient polynomials: with max_degree 1 the degree-1 polynomial x
commits but cannot be opened, and with max_degree 2 the constant polynomial 5
commits but cannot be opened. -/
theorem C1_counterexample :
    (commit 0 (setup 1 false (2 : ZMod 17) 3 5 7) none [0, 1] []).isSome = true ∧
    commitOpenCheck 0 (setup 1 false (2 : ZMod 17) 3 5 7) none [0, 1] 4 [] = none ∧
    (commit 0 (setup 2 false (2 : ZMod 17) 3 5 7) none [5] []).isSome = true ∧
    commitOpenCheck 0 (setup 2 false (2 : ZMod 17) 3 5 7) none [5] 4 [] = none := by
  refine ⟨?_, ?_, ?_, ?_⟩ <;> decide

/-- C1 witness: the amended completeness theorem evaluated on a concrete
instance over the field with 17 elements, with hiding bound 1. -/
theorem C1_completeness_witness :
    commitOpenCheck 0 (setup 2 false (2 : ZMod 17) 3 5 7) (some 1) [1, 2] 3 [[1, 1]] =
      some true :=
  C1_completeness 2 false 2 3 5 7 0 (some 1) [1, 2] 3 [[1, 1]] (by decide) (by decide)
    (fun b hbeq => by
      obtain rfl : b = 1 := by exact Option.some.inj hbeq.symm
      exact ⟨by decide, by decide, [1, 1], by decide, by decide⟩)

end ClaimC1

section ClaimC2

variable {F : Type} [Field F] [DecidableEq F]

/-- C2: check computes inner = commitment - value * powers_of_g[0], subtracts
proof.blinding_value * powers_of_gamma_g[0] when hiding is enabled, and
returns true exactly when the pairing identity
pairing(inner, h) = pairing(proof.w, beta_h - point * h) holds. -/
theorem C2_check_pairing :
    (∀ (params : SRSParams F) (c : Commitment F) (z v w : F) (rvo : Option F),
      (check params none c z v ⟨w, rvo⟩ = some true ↔
        DummyGroup.pairing (c.value - params.powers_of_g.getD 0 0 * v) params.h =
          DummyGroup.pairing w (params.beta_h - params.h * z))) ∧
    (∀ (params : SRSParams F) (c : Commitment F) (z v w rv : F) (hbv : ℕ),
      (check params (some hbv) c z v ⟨w, some rv⟩ = some true ↔
        DummyGroup.pairing
            (c.value - params.powers_of_g.getD 0 0 * v -
              params.powers_of_gamma_g.getD 0 0 * rv) params.h =
          DummyGroup.pairing w (params.beta_h - params.h * z))) := by
  constructor
  · intro params c z v w rvo
    unfold check
    simp only [Option.some.injEq, decide_eq_true_eq]
  · intro params c z v w rv hbv
    unfold check
    simp only [Option.some.injEq, decide_eq_true_eq]

end ClaimC2

section ClaimC3

variable {F : Type} [Field F] [DecidableEq F]

/-- C3: for every coefficient list of length at least 2 and every d, the
synthetic division by (x - d) succeeds, the quotient is one entry shorter,
rebuilding quotient * (x - d) + remainder gives back the input coefficient
list, and the remainder is the evaluation of the input at d. -/
theorem C3_division_identity (coeffs : List F) (d : F) (hlen : 2 ≤ coeffs.length) :
    division_by_linear_divisor coeffs d = some (divQuot coeffs d, divRem coeffs d) ∧
    (divQuot coeffs d).length + 1 = coeffs.length ∧
    (mulLinearRev d (divQuot coeffs d).reverse (divRem coeffs d)).reverse = coeffs ∧
    divRem coeffs d = evalPoly coeffs d := by
  have h := division_eq_quot_rem coeffs d hlen
  exact ⟨h, division_quotient_length coeffs d _ _ h, division_recon coeffs d _ _ h,
    division_remainder coeffs d _ _ h⟩

/-- C3 witness: the spec scenario polynomial 1 + 2x + 3x^2 divided by (x - 5)
over the field with 17 elements. -/
theorem C3_division_identity_witness :
    division_by_linear_divisor [(1 : ZMod 17), 2, 3] 5 =
        some (divQuot [(1 : ZMod 17), 2, 3] 5, divRem [(1 : ZMod 17), 2, 3] 5) ∧
    (divQuot [(1 : ZMod 17), 2, 3] 5).length + 1 =
      ([(1 : ZMod 17), 2, 3] : List (ZMod 17)).length ∧
    (mulLinearRev 5 (divQuot [(1 : ZMod 17), 2, 3] 5).reverse
      (divRem [(1 : ZMod 17), 2, 3] 5)).reverse = [1, 2, 3] ∧
    divRem [(1 : ZMod 17), 2, 3] 5 = evalPoly [(1 : ZMod 17), 2, 3] 5 :=
  C3_division_identity [1, 2, 3] 5 (by decide)

end ClaimC3

section ClaimC6

variable {F : Type} [Field F] [DecidableEq F]

/-- C6: with hiding disabled, for polynomials p and q each within the commit
degree bound, commit succeeds on p, q and on their coefficient-wise sum, and
commitment addition sends the two commitments to the commitment of the sum. -/
theorem C6_homomorphism (md : ℕ) (flag : Bool) (s g hgen γ : F) (G1 : ℕ)
    (p q : List F)
    (hp : polyDegree p + 1 ≤ md + 1) (hq : polyDegree q + 1 ≤ md + 1) :
    commit G1 (setup md flag s g hgen γ) none p [] =
      some (commitFst G1 (setup md flag s g hgen γ) none p [], []) ∧
    commit G1 (setup md flag s g hgen γ) none q [] =
      some (commitFst G1 (setup md flag s g hgen γ) none q [], []) ∧
    commit G1 (setup md flag s g hgen γ) none (polyAdd p q) [] =
      some (commitFst G1 (setup md flag s g hgen γ) none (polyAdd p q) [], []) ∧
    Commitment.add (commitFst G1 (setup md flag s g hgen γ) none p [])
        (commitFst G1 (setup md flag s g hgen γ) none q []) =
      some (commitFst G1 (setup md flag s g hgen γ) none (polyAdd p q) []) := by
  have hglen := setup_powers_of_g_length md flag s g hgen γ
  have hpq : polyDegree (polyAdd p q) + 1 ≤ md + 1 := by
    have := polyDegree_polyAdd_le p q (max (polyDegree p) (polyDegree q))
      (le_max_left _ _) (le_max_right _ _)
    omega
  have hcp := commit_char_none G1 (setup md flag s g hgen γ) p [] (by omega)
  have hcq := commit_char_none G1 (setup md flag s g hgen γ) q [] (by omega)
  have hcpq := commit_char_none G1 (setup md flag s g hgen γ) (polyAdd p q) [] (by omega)
  have hfp : commitFst G1 (setup md flag s g hgen γ) none p [] =
      ⟨G1, msm_bigint_basicF (setup md flag s g hgen γ).powers_of_g p⟩ := by
    unfold commitFst
    rw [hcp, Option.getD_some]
  have hfq : commitFst G1 (setup md flag s g hgen γ) none q [] =
      ⟨G1, msm_bigint_basicF (setup md flag s g hgen γ).powers_of_g q⟩ := by
    unfold commitFst
    rw [hcq, Option.getD_some]
  have hfpq : commitFst G1 (setup md flag s g hgen γ) none (polyAdd p q) [] =
      ⟨G1, msm_bigint_basicF (setup md flag s g hgen γ).powers_of_g (polyAdd p q)⟩ := by
    unfold commitFst
    rw [hcpq, Option.getD_some]
  refine ⟨by rw [hcp, hfp], by rw [hcq, hfq], by rw [hcpq, hfpq], ?_⟩
  rw [hfp, hfq, hfpq]
  unfold Commitment.add DummyGroup.exp DummyGroup.scalar_mul
  rw [if_pos rfl]
  refine congrArg some (congrArg (Commitment.mk G1) ?_)
  rw [msm_basicF_polyAdd p q (setup md flag s g hgen γ).powers_of_g]
  push_cast
  ring

/-- C6 witness: the homomorphism theorem on the concrete polynomials 1 + 2x
and 3 over the field with 17 elements. -/
theorem C6_homomorphism_witness :
    commit 0 (setup 2 false (2 : ZMod 17) 3 5 7) none [1, 2] [] =
      some (commitFst 0 (setup 2 false (2 : ZMod 17) 3 5 7) none [1, 2] [], []) ∧
    commit 0 (setup 2 false (2 : ZMod 17) 3 5 7) none [3] [] =
      some (commitFst 0 (setup 2 false (2 : ZMod 17) 3 5 7) none [3] [], []) ∧
    commit 0 (setup 2 false (2 : ZMod 17) 3 5 7) none (polyAdd [1, 2] [3]) [] =
      some (commitFst 0 (setup 2 false (2 : ZMod 17) 3 5 7) none (polyAdd [1, 2] [3]) [], []) ∧
    Commitment.add (commitFst 0 (setup 2 false (2 : ZMod 17) 3 5 7) none [1, 2] [])
        (commitFst 0 (setup 2 false (2 : ZMod 17) 3 5 7) none [3] []) =
      some (commitFst 0 (setup 2 false (2 : ZMod 17) 3 5 7) none (polyAdd [1, 2] [3]) []) :=
  C6_homomorphism 2 false 2 3 5 7 0 [1, 2] [3] (by decide) (by decide)

end ClaimC6

section ClaimC7

variable {F : Type} [Field F] [DecidableEq F]

/-- C7 (code evaluation): commit on an oversized polynomial fails its degree
assert; commit under hiding bound 0 never terminates on any finite supply of
draws, because every draw has a single coefficient hence degree 0, so the
resample loop redraws forever and the hiding-bound-zero assert is unreachable;
synthetic division of fewer than two coefficients fails its assert; adding
commitments with different group tags fails. -/
theorem C7_fatal_preconditions :
    (∀ (G1 : ℕ) (P : SRSParams F) (hb : Option ℕ) (coeffs : List F) (draws : List (List F)),
      P.powers_of_g.length < polyDegree coeffs + 1 → commit G1 P hb coeffs draws = none) ∧
    (∀ (G1 : ℕ) (P : SRSParams F) (coeffs : List F) (draws : List (List F)),
      (∀ l ∈ draws, l.length = 1) → commit G1 P (some 0) coeffs draws = none) ∧
    (∀ (coeffs : List F) (d : F), coeffs.length ≤ 1 →
      division_by_linear_divisor coeffs d = none) ∧
    (∀ a b : Commitment F, a.group ≠ b.group → Commitment.add a b = none) := by
  refine ⟨?_, ?_, ?_, ?_⟩
  · intro G1 P hb coeffs draws hlen
    unfold commit
    rw [if_neg (by omega)]
  · intro G1 P coeffs draws hdraws
    unfold commit
    by_cases hdeg : polyDegree coeffs + 1 ≤ P.powers_of_g.length
    · rw [if_pos hdeg]
      simp only [skip_leading_zeros_and_convert_to_bigints, msm_bigintF_false]
      rw [drawBlinding_none_of_short draws hdraws]
    · rw [if_neg hdeg]
  · intro coeffs d hlen
    unfold division_by_linear_divisor
    rw [if_pos hlen]
  · intro a b hab
    unfold Commitment.add
    rw [if_neg hab]

/-- C7 witness: the four failure modes evaluated on concrete inputs over the
field with 17 elements. -/
theorem C7_fatal_preconditions_witness :
    commit 0 (⟨[1], [1], 1, 1, []⟩ : SRSParams (ZMod 17)) none [1, 1] [] = none ∧
    commit 0 (setup 2 false (2 : ZMod 17) 3 5 7) (some 0) [1, 2] [[3], [4]] = none ∧
    division_by_linear_divisor [(5 : ZMod 17)] 3 = none ∧
    Commitment.add (⟨0, (3 : ZMod 17)⟩ : Commitment (ZMod 17)) ⟨1, 4⟩ = none :=
  ⟨(C7_fatal_preconditions (F := ZMod 17)).1 0 ⟨[1], [1], 1, 1, []⟩ none [1, 1] [] (by decide),
   (C7_fatal_preconditions (F := ZMod 17)).2.1 0 (setup 2 false 2 3 5 7) [1, 2] [[3], [4]]
      (by decide),
   (C7_fatal_preconditions (F := ZMod 17)).2.2.1 [5] 3 (by decide),
   (C7_fatal_preconditions (F := ZMod 17)).2.2.2 ⟨0, 3⟩ ⟨1, 4⟩ (by decide)⟩

end ClaimC7

section ClaimC8

variable {F : Type} [Field F] [DecidableEq F]

/-- C8: whenever a hiding bound b > 0 is configured and commit returns, the
blinding randomness it returns has degree at least 1, never a constant. -/
theorem C8_hiding_nondegenerate (G1 : ℕ) (P : SRSParams F) (b : ℕ) (coeffs : List F)
    (draws : List (List F)) (c : Commitment F) (rnd : List F)
    (hbpos : 0 < b)
    (h : commit G1 P (some b) coeffs draws = some (c, rnd)) :
    1 ≤ polyDegree rnd := by
  unfold commit at h
  by_cases hdeg : polyDegree coeffs + 1 ≤ P.powers_of_g.length
  · rw [if_pos hdeg] at h
    simp only [skip_leading_zeros_and_convert_to_bigints, msm_bigintF_false] at h
    cases hdr : drawBlinding (F := F) draws with
    | none =>
      simp only [hdr] at h
      exact Option.noConfusion h
    | some r =>
      simp only [hdr] at h
      by_cases hb0 : b ≠ 0
      · rw [if_pos hb0] at h
        by_cases hrl : r.length - 1 < P.powers_of_gamma_g.length
        · rw [if_pos hrl] at h
          simp only [Option.some.injEq, Prod.mk.injEq] at h
          obtain ⟨-, hrnd⟩ := h
          rw [← hrnd]
          exact drawBlinding_degree draws r hdr
        · rw [if_neg hrl] at h
          exact Option.noConfusion h
      · rw [if_neg hb0] at h
        exact Option.noConfusion h
  · rw [if_neg hdeg] at h
    exact Option.noConfusion h

/-- C8 witness: a concrete committing run with hiding bound 1 whose returned
blinding polynomial has degree 1. -/
theorem C8_hiding_nondegenerate_witness : 1 ≤ polyDegree [(1 : ZMod 17), 1] :=
  C8_hiding_nondegenerate 0 (setup 2 false (2 : ZMod 17) 3 5 7) 1 [1, 2] [[1, 1]]
    ⟨0, 2⟩ [1, 1] (by decide) (by decide)

end ClaimC8

section ClaimC9

variable {F : Type} [Field F] [DecidableEq F]

/-- C9: setup returns powers_of_g of length max_degree + 1 with i-th entry
g * s^i, powers_of_gamma_g of length max_degree + 2 with i-th entry
gamma_g * s^i, and beta_h = s * h. -/
theorem C9_setup_shape (md : ℕ) (flag : Bool) (s g hgen γ : F) :
    (setup md flag s g hgen γ).powers_of_g.length = md + 1 ∧
    (setup md flag s g hgen γ).powers_of_g =
      (List.range (md + 1)).map (fun i => g * s ^ i) ∧
    (setup md flag s g hgen γ).powers_of_gamma_g.length = md + 2 ∧
    (setup md flag s g hgen γ).powers_of_gamma_g =
      (List.range (md + 2)).map (fun i => γ * s ^ i) ∧
    (setup md flag s g hgen γ).beta_h = s * hgen :=
  ⟨setup_powers_of_g_length md flag s g hgen γ, setup_powers_of_g md flag s g hgen γ,
   setup_powers_of_gamma_g_length md flag s g hgen γ, setup_powers_of_gamma_g md flag s g hgen γ,
   setup_beta_h md flag s g hgen γ⟩

end ClaimC9

section ClaimC10

variable {F : Type} [Field F] [DecidableEq F]

/-- C10: with the shipped module flag negation_is_cheap = false, every call to
msm_bigint evaluates the basic linear-scan algorithm, both on the integer
scalars of the standalone MSM entry point and on the field-element scalars
commit and open_with_witness_polynomial pass; the windowed-NAF path is never
taken. -/
theorem C10_dispatch_basic :
    negation_is_cheap = false ∧
    (∀ (bases : List ℤ) (bigints : List ℕ),
      msm_bigint negation_is_cheap bases bigints = some (msm_bigint_basic bases bigints)) ∧
    (∀ (bases scalars : List F),
      msm_bigintF negation_is_cheap bases scalars = some (msm_bigint_basicF bases scalars)) :=
  ⟨rfl, fun _ _ => rfl, fun _ _ => rfl⟩

end ClaimC10

section ClaimC4

theorem next_power_of_two_zero : next_power_of_two 0 = 0 := by
  rw [next_power_of_two]
  norm_num

theorem next_power_of_two_one : next_power_of_two 1 = 1 := by
  rw [next_power_of_two]
  norm_num [next_power_of_two_zero]

/-- C4 (code evaluation): the basic and windowed-NAF multi-scalar
multiplications disagree already on bases [1], scalars [1]: the wNAF scan adds
precomp[j][window - 1] out of the table precomp[j][i] = i * base, an
off-by-one that contributes (window - 1) * base instead of a signed-window
multiple, so it returns 0 where the basic scan returns 1. -/
theorem C4_msm_disagreement :
    msm_bigint_wnaf [1] [1] = some 0 ∧
    msm_bigint_basic [1] [1] = 1 ∧
    msm_bigint_wnaf [1] [1] ≠ some (msm_bigint_basic [1] [1]) := by
  have hw : msm_bigint_wnaf [1] [1] = some 0 := by
    simp [msm_bigint_wnaf, wnafInner, next_power_of_two_one, List.max?, List.enum,
      List.enumFrom]
    decide
  have hb : msm_bigint_basic [1] [1] = 1 := by decide
  refine ⟨hw, hb, ?_⟩
  rw [hw, hb]
  decide

end ClaimC4

section ClaimC5

variable {F : Type} [Field F] [DecidableEq F]

/-- C5 (amended): in batch_check over any claims and in both hiding modes,
whenever the combination loop completes, its accumulators weight claim j by
randomizerSeq draws j: the first claim's coefficient is the constant 1 (the
loop's initial randomizer, not a random draw) and every claim i with i >= 1 is
weighted by the fresh draw i - 1; batch_check then returns the pairing
comparison built from exactly these totals. -/
theorem C5_randomizer_schedule (params : SRSParams F) (hb : Option ℕ) (draws : ℕ → ℤ)
    (commitments : List (Commitment F)) (points values : List F) (proofs : List (Proof F))
    (tc tw gm ggm : F) (i : ℕ)
    (h : batchLoop hb.isSome draws (batchClaims commitments points values proofs)
      0 1 0 0 0 0 = some (tc, tw, gm, ggm))
    (hi : 1 ≤ i) :
    batch_check params hb commitments points values proofs draws =
      some (decide (DummyGroup.pairing tw params.beta_h =
        DummyGroup.pairing
          (if hb.isSome then
            tc - params.powers_of_g.getD 0 0 * gm -
              params.powers_of_gamma_g.getD 0 0 * ggm
          else tc - params.powers_of_g.getD 0 0 * gm) params.h)) ∧
    tw = ∑ j ∈ Finset.range (batchClaims commitments points values proofs).length,
        ((batchClaims commitments points values proofs).getD j (0, 0, 0, 0, none)).2.2.2.1 *
          ((randomizerSeq draws j : ℤ) : F) ∧
    tc = ∑ j ∈ Finset.range (batchClaims commitments points values proofs).length,
        (((batchClaims commitments points values proofs).getD j (0, 0, 0, 0, none)).2.1 *
            ((batchClaims commitments points values proofs).getD j (0, 0, 0, 0, none)).2.2.2.1 +
          ((batchClaims commitments points values proofs).getD j (0, 0, 0, 0, none)).1) *
          ((randomizerSeq draws j : ℤ) : F) ∧
    gm = ∑ j ∈ Finset.range (batchClaims commitments points values proofs).length,
        ((randomizerSeq draws j : ℤ) : F) *
          ((batchClaims commitments points values proofs).getD j (0, 0, 0, 0, none)).2.2.1 ∧
    ggm = (if hb.isSome then
        ∑ j ∈ Finset.range (batchClaims commitments points values proofs).length,
          ((randomizerSeq draws j : ℤ) : F) *
            (((batchClaims commitments points values proofs).getD j
              (0, 0, 0, 0, none)).2.2.2.2).getD 0
      else 0) ∧
    randomizerSeq draws 0 = 1 ∧
    randomizerSeq draws i = draws (i - 1) := by
  obtain ⟨htc, htw, hgm, hggm⟩ :=
    batchLoop_spec draws (batchClaims commitments points values proofs) hb.isSome
      0 1 0 0 0 0 tc tw gm ggm h
  refine ⟨?_, ?_, ?_, ?_, ?_, rfl, ?_⟩
  · unfold batch_check
    rw [h]
  · rw [htw, zero_add]
    exact Finset.sum_congr rfl (fun j _ => by rw [randomizerSeq_eq_from draws j])
  · rw [htc, zero_add]
    exact Finset.sum_congr rfl (fun j _ => by rw [randomizerSeq_eq_from draws j])
  · rw [hgm, zero_add]
    exact Finset.sum_congr rfl (fun j _ => by rw [randomizerSeq_eq_from draws j])
  · rw [hggm, zero_add]
    by_cases hhb : hb.isSome = true
    · simp only [hhb, if_true]
      exact Finset.sum_congr rfl (fun j _ => by rw [randomizerSeq_eq_from draws j])
    · simp only [Bool.not_eq_true] at hhb
      simp [hhb]
  · cases i with
    | zero => omega
    | succ k =>
      show draws k = draws (k + 1 - 1)
      exact congrArg draws (by omega)

/-- C5 witness: the randomizer schedule on a concrete one-claim batch over
the field with 17 elements with hiding enabled (hiding bound 3, as the
repository harness uses) and the constant draw stream 3. -/
theorem C5_randomizer_schedule_witness :
    batch_check (⟨[1], [1], 1, 1, []⟩ : SRSParams (ZMod 17)) (some 3) [⟨0, 2⟩] [3] [4]
        [⟨5, some 6⟩] (fun _ => 3) =
      some (decide (DummyGroup.pairing (5 : ZMod 17)
          (⟨[1], [1], 1, 1, []⟩ : SRSParams (ZMod 17)).beta_h =
        DummyGroup.pairing
          (if (some 3 : Option ℕ).isSome then
            (0 : ZMod 17) -
              (⟨[1], [1], 1, 1, []⟩ : SRSParams (ZMod 17)).powers_of_g.getD 0 0 * 4 -
              (⟨[1], [1], 1, 1, []⟩ : SRSParams (ZMod 17)).powers_of_gamma_g.getD 0 0 * 6
          else (0 : ZMod 17) -
            (⟨[1], [1], 1, 1, []⟩ : SRSParams (ZMod 17)).powers_of_g.getD 0 0 * 4)
          (⟨[1], [1], 1, 1, []⟩ : SRSParams (ZMod 17)).h)) ∧
    (5 : ZMod 17) = ∑ j ∈ Finset.range
        (batchClaims [(⟨0, 2⟩ : Commitment (ZMod 17))] [3] [4] [⟨5, some 6⟩]).length,
        ((batchClaims [(⟨0, 2⟩ : Commitment (ZMod 17))] [3] [4] [⟨5, some 6⟩]).getD j
          (0, 0, 0, 0, none)).2.2.2.1 * ((randomizerSeq (fun _ => 3) j : ℤ) : ZMod 17) ∧
    (0 : ZMod 17) = ∑ j ∈ Finset.range
        (batchClaims [(⟨0, 2⟩ : Commitment (ZMod 17))] [3] [4] [⟨5, some 6⟩]).length,
        (((batchClaims [(⟨0, 2⟩ : Commitment (ZMod 17))] [3] [4] [⟨5, some 6⟩]).getD j
            (0, 0, 0, 0, none)).2.1 *
          ((batchClaims [(⟨0, 2⟩ : Commitment (ZMod 17))] [3] [4] [⟨5, some 6⟩]).getD j
            (0, 0, 0, 0, none)).2.2.2.1 +
          ((batchClaims [(⟨0, 2⟩ : Commitment (ZMod 17))] [3] [4] [⟨5, some 6⟩]).getD j
            (0, 0, 0, 0, none)).1) * ((randomizerSeq (fun _ => 3) j : ℤ) : ZMod 17) ∧
    (4 : ZMod 17) = ∑ j ∈ Finset.range
        (batchClaims [(⟨0, 2⟩ : Commitment (ZMod 17))] [3] [4] [⟨5, some 6⟩]).length,
        ((randomizerSeq (fun _ => 3) j : ℤ) : ZMod 17) *
          ((batchClaims [(⟨0, 2⟩ : Commitment (ZMod 17))] [3] [4] [⟨5, some 6⟩]).getD j
            (0, 0, 0, 0, none)).2.2.1 ∧
    (6 : ZMod 17) = (if (some 3 : Option ℕ).isSome then
        ∑ j ∈ Finset.range
          (batchClaims [(⟨0, 2⟩ : Commitment (ZMod 17))] [3] [4] [⟨5, some 6⟩]).length,
          ((randomizerSeq (fun _ => 3) j : ℤ) : ZMod 17) *
            (((batchClaims [(⟨0, 2⟩ : Commitment (ZMod 17))] [3] [4] [⟨5, some 6⟩]).getD j
              (0, 0, 0, 0, none)).2.2.2.2).getD 0
      else 0) ∧
    randomizerSeq (fun _ => 3) 0 = 1 ∧
    randomizerSeq (fun _ => 3) 1 = (fun _ : ℕ => (3 : ℤ)) (1 - 1) :=
  C5_randomizer_schedule (⟨[1], [1], 1, 1, []⟩ : SRSParams (ZMod 17)) (some 3) (fun _ => 3)
    [⟨0, 2⟩] [3] [4] [⟨5, some 6⟩] 0 5 4 6 1 (by decide) (by decide)

/-- C5 counterexample: the claim that every claim index, the first included,
gets a freshly drawn randomizer is false: the first coefficient is the
constant 1 whatever the draw stream supplies, and concrete one-claim
batch_check runs, with hiding disabled and with hiding enabled, return the
same answer under different draw streams. -/
theorem C5_counterexample :
    (¬ ∀ draws : ℕ → ℤ, randomizerSeq draws 0 = draws 0) ∧
    batch_check (⟨[1], [1], 1, 1, []⟩ : SRSParams (ZMod 17)) none [⟨0, 0⟩] [0] [1]
      [⟨0, none⟩] (fun _ => 0) = some false ∧
    batch_check (⟨[1], [1], 1, 1, []⟩ : SRSParams (ZMod 17)) none [⟨0, 0⟩] [0] [1]
      [⟨0, none⟩] (fun _ => 5) = some false ∧
    batch_check (⟨[1], [1], 1, 1, []⟩ : SRSParams (ZMod 17)) (some 3) [⟨0, 0⟩] [0] [1]
      [⟨0, some 0⟩] (fun _ => 0) = some false ∧
    batch_check (⟨[1], [1], 1, 1, []⟩ : SRSParams (ZMod 17)) (some 3) [⟨0, 0⟩] [0] [1]
      [⟨0, some 0⟩] (fun _ => 7) = some false := by
  refine ⟨fun hall => absurd (hall (fun _ => 5)) (by decide), by decide, by decide,
    by decide, by decide⟩

end ClaimC5

end KZGHiding
